import Mathlib

/-!
Verification development for the hyou spreadsheet library.

Shallow embedding of the core data structures and operations of
`hyou/util.py`, `hyou/cell.py`, `hyou/cell_format.py`, `hyou/view.py` and
`hyou/worksheet.py`.  Python dictionaries are embedded as insertion-ordered
association lists with Python dict semantics (assignment replaces the first
matching key in place, otherwise appends; lookup returns the first match).
Stateful methods are embedded as explicit state-passing functions; a method
that can raise returns the mutated-so-far state together with an
`Except` result.  Network calls are embedded by passing the response
(or the transport outcome) as an explicit argument.
-/

set_option maxHeartbeats 1000000

namespace Hyou

/-! ## JSON-like wire data

Nested string-keyed dictionaries as used for format data and API payloads. -/

inductive JsonVal where
  | str (s : String)
  | num (q : ℚ)
  | bool (b : Bool)
  | obj (fields : List (String × JsonVal))

/-- A Python dictionary with `JsonVal` values. -/
abbrev Obj := List (String × JsonVal)

/-- Python `dict.get(key)`: first matching entry, if any. -/
def objGet : Obj → String → Option JsonVal
  | [], _ => none
  | (k, v) :: rest, key => if k = key then some v else objGet rest key

/-- Python `dict[key] = value`: replace the first matching entry in place,
otherwise append at the end. -/
def objSet : Obj → String → JsonVal → Obj
  | [], key, v => [(key, v)]
  | (k, w) :: rest, key, v =>
    if k = key then (k, v) :: rest else (k, w) :: objSet rest key v

/-- Python `dict.setdefault(key, value)`: keep the dictionary unchanged when
the key is present, otherwise append the default. -/
def objSetdefault : Obj → String → JsonVal → Obj
  | [], key, v => [(key, v)]
  | (k, w) :: rest, key, v =>
    if k = key then (k, w) :: rest else (k, w) :: objSetdefault rest key v

/-- Walking a path of keys through nested dictionaries, as
`CellFormatProperty._get_value_from_data` does with successive `.get` calls:
the result is present exactly when every step of the path is present.
(A present intermediate value that is not a dictionary makes the source
raise; the embedding returns `none` there.) -/
def lookupPath : JsonVal → List String → Option JsonVal
  | v, [] => some v
  | .obj o, k :: rest =>
    match objGet o k with
    | some v => lookupPath v rest
    | none => none
  | _, _ :: _ => none

/-- Path lookup starting from a dictionary. -/
def getPath (o : Obj) (p : List String) : Option JsonVal :=
  lookupPath (.obj o) p

/-- Writing a value at a nested path, as `CellFormatProperty._set_value_to_data`
does: intermediate dictionaries are created with `setdefault(name, \x7b\x7d)`,
the final key is assigned.  (A present intermediate value that is not a
dictionary makes the source raise; the embedding replaces it.) -/
def setPath : Obj → List String → JsonVal → Obj
  | o, [], _ => o
  | o, [k], v => objSet o k v
  | o, k :: rest, v =>
    objSet o k (.obj (setPath
      (match objGet o k with | some (.obj io) => io | _ => []) rest v))

/-- Creating the intermediate dictionaries along a path (the unconditional
`setdefault` walk that `CellFormat._merge_formats` performs on the merged
dictionary before deciding whether to write the leaf). -/
def ensureDirs : Obj → List String → Obj
  | o, [] => o
  | o, k :: rest =>
    objSet o k (.obj (ensureDirs
      (match objGet o k with | some (.obj io) => io | _ => []) rest))

/-! ## Errors -/

inductive HyouErr where
  | indexError (msg : String)
  | uncommittedCellProperty (prop : String)
  | runtimeError (msg : String)
  | keyError
  | valueError (msg : String)
  deriving DecidableEq

/-! ## Number format types (`cell_format.NumberFormatType`) -/

inductive NumberFormatType where
  | UNSPECIFIED
  | TEXT
  | NUMBER
  | PERCENT
  | CURRENCY
  | DATE
  | TIME
  | DATE_TIME
  | SCIENTIFIC
  deriving DecidableEq

def NumberFormatType.toWire : NumberFormatType → String
  | .UNSPECIFIED => "NUMBER_FORMAT_TYPE_UNSPECIFIED"
  | .TEXT => "TEXT"
  | .NUMBER => "NUMBER"
  | .PERCENT => "PERCENT"
  | .CURRENCY => "CURRENCY"
  | .DATE => "DATE"
  | .TIME => "TIME"
  | .DATE_TIME => "DATE_TIME"
  | .SCIENTIFIC => "SCIENTIFIC"

def NumberFormatType.ofWire : String → Option NumberFormatType
  | "NUMBER_FORMAT_TYPE_UNSPECIFIED" => some .UNSPECIFIED
  | "TEXT" => some .TEXT
  | "NUMBER" => some .NUMBER
  | "PERCENT" => some .PERCENT
  | "CURRENCY" => some .CURRENCY
  | "DATE" => some .DATE
  | "TIME" => some .TIME
  | "DATE_TIME" => some .DATE_TIME
  | "SCIENTIFIC" => some .SCIENTIFIC
  | _ => none

/-! ## Serial date conversion

Modelled from the spec: the functions `util.SERIAL_EPOCH`,
`util.serial_to_datetime` and `util.datetime_to_serial` are used by
`cell.py` but are not part of the sources given under src/.  Per the spec, a
serial is a day-count encoding of a date/time relative to a fixed epoch,
with sub-day precision carried as a fractional day; conversion must be
exact for integral day counts and preserve sub-second precision via
fractional-day arithmetic.  Date/times are embedded as a day offset from
the fixed epoch plus a microsecond-of-day, and the fractional arithmetic
is carried out exactly over the rationals. -/

def USEC_PER_DAY : ℕ := 86400000000

/-- Modelled from the spec: `util.datetime_to_serial` for a datetime that is
`day` days and `usec` microseconds after the serial epoch. -/
def datetime_to_serial (day : Int) (usec : Nat) : ℚ :=
  day + (usec : ℚ) / (USEC_PER_DAY : ℚ)

/-- Modelled from the spec: the day component of
`util.serial_to_datetime serial` (relative to the serial epoch). -/
def serialDay (q : ℚ) : Int := q.floor

/-- Modelled from the spec: the microsecond-of-day component of
`util.serial_to_datetime serial`. -/
def serialUsec (q : ℚ) : Nat :=
  ((q - (q.floor : ℚ)) * (USEC_PER_DAY : ℚ)).floor.toNat

/-! ## Typed cell values (`cell.py`)

`FormulaValue` and `ErrorValue` wrap strings; dates, times and datetimes are
the respective components of the day/microsecond representation above.
`float` is a numeric value that did not come from a Python `int` (the source
keeps Python's `int`/`float` distinction through the wire dictionary, so the
embedding does too). -/

inductive Value where
  | str (s : String)
  | bool (b : Bool)
  | int (n : Int)
  | float (q : ℚ)
  | formula (f : String)
  | error (e : String)
  | date (day : Int)
  | time (usec : Nat)
  | datetime (day : Int) (usec : Nat)
  deriving DecidableEq

/-- A wire `numberValue` payload: a Python `int` or a Python `float`
(embedded as an exact rational, per the spec's exactness requirement). -/
inductive WireNum where
  | intVal (n : Int)
  | ratVal (q : ℚ)
  deriving DecidableEq

def WireNum.toRat : WireNum → ℚ
  | .intVal n => n
  | .ratVal q => q

/-- A wire extended value: exactly one of the five variants.
An absent or empty (falsy) wire dictionary is `Option.none` at use sites. -/
inductive ExtendedValue where
  | stringValue (s : String)
  | boolValue (b : Bool)
  | formulaValue (f : String)
  | errorValue (e : String)
  | numberValue (n : WireNum)
  deriving DecidableEq

/-- `Cell._parse_extended_value`.  The `format` argument is represented by
its `number_format_type` property, the only part of the format the source
consults. -/
def parse_extended_value (ev : Option ExtendedValue) (fmtType : NumberFormatType) :
    Option Value :=
  match ev with
  | none => none
  | some (.stringValue s) => some (.str s)
  | some (.boolValue b) => some (.bool b)
  | some (.formulaValue f) => some (.formula f)
  | some (.errorValue e) => some (.error e)
  | some (.numberValue n) =>
    match fmtType with
    | .DATE_TIME => some (.datetime (serialDay n.toRat) (serialUsec n.toRat))
    | .DATE => some (.date (serialDay n.toRat))
    | .TIME => some (.time (serialUsec n.toRat))
    | _ =>
      match n with
      | .intVal m => some (.int m)
      | .ratVal q => some (.float q)

/-- `Cell._unparse_extended_value`.  Returns the wire value and the inferred
number format type; fails on `ErrorValue` and on unsupported types (a Python
`float` has no branch in the source and falls through to the final
`ValueError`). -/
def unparse_extended_value (v : Option Value) :
    Except HyouErr (Option ExtendedValue × Option NumberFormatType) :=
  match v with
  | none => .ok (none, none)
  | some (.str s) => .ok (some (.stringValue s), none)
  | some (.bool b) => .ok (some (.boolValue b), none)
  | some (.formula f) => .ok (some (.formulaValue f), none)
  | some (.error _) => .error (.valueError "ErrorValue can not be unparsed.")
  | some (.int n) => .ok (some (.numberValue (.intVal n)), none)
  | some (.datetime day usec) =>
    .ok (some (.numberValue (.ratVal (datetime_to_serial day usec))), some .DATE_TIME)
  | some (.date day) =>
    .ok (some (.numberValue (.ratVal (datetime_to_serial day 0))), some .DATE)
  | some (.time usec) =>
    .ok (some (.numberValue (.ratVal (datetime_to_serial 0 usec))), some .TIME)
  | some (.float _) => .error (.valueError "Can not unparse this value.")

/-- Encoding followed by decoding, with the decode format context's number
format type set to the type inferred by the encoder (or plain,
`UNSPECIFIED`, when none was inferred). -/
def codecRoundTrip (v : Option Value) : Except HyouErr (Option Value) :=
  match unparse_extended_value v with
  | .error e => .error e
  | .ok (w, t) => .ok (parse_extended_value w (t.getD .UNSPECIFIED))

/-- The supported typed values of the codec: strings, booleans, integers,
formula references, and well-formed dates, times and datetimes. -/
def Value.supported : Value → Bool
  | .str _ => true
  | .bool _ => true
  | .int _ => true
  | .formula _ => true
  | .date _ => true
  | .time usec => decide (usec < USEC_PER_DAY)
  | .datetime _ usec => decide (usec < USEC_PER_DAY)
  | .float _ => false
  | .error _ => false

def Value.isErrorValue : Value → Bool
  | .error _ => true
  | _ => false

/-! ## Column addresses (`util.format_column_address`) -/

/-- The `while k >= 26 ** p` loop of `util.format_column_address`. -/
def fcaLoop (k p : Nat) : Nat × Nat :=
  if h : 26 ^ p ≤ k then fcaLoop (k - 26 ^ p) (p + 1) else (k, p)
termination_by k
decreasing_by
  have h1 : 1 ≤ 26 ^ p := Nat.one_le_pow p 26 (by norm_num)
  omega

/-- `util.format_column_address`, exactly as in the source: after the while
loop, the digit-building loop prepends `chr(ord(A) + k % 26)` on every
iteration without ever dividing `k` by 26. -/
def format_column_address (index_column : Nat) : String :=
  let kp := fcaLoop index_column 1
  (List.range kp.2).foldl
    (fun s _ => String.mk [Char.ofNat (65 + kp.1 % 26)] ++ s) ""

/-- Modelled from the spec: the bijective base-26 numeral of a column index
over digits A..Z with no leading zero digit (0 is A, 25 is Z, 26 is AA, ...). -/
def bijectiveColumnName (n : Nat) : String :=
  if h : n < 26 then String.mk [Char.ofNat (65 + n)]
  else bijectiveColumnName (n / 26 - 1) ++ String.mk [Char.ofNat (65 + n % 26)]
termination_by n
decreasing_by
  have h1 : n / 26 < n := Nat.div_lt_self (by omega) (by norm_num)
  omega

/-! ## Cell formats (`cell_format.py`) -/

/-- The declared format properties of `CellFormat`, in declaration order
(the order of `CellFormat._property_names`, sorted by the global
declaration-order index): each entry is the property's data path. -/
def cellFormatPropertyPaths : List (List String) :=
  [["numberFormat", "type"],
   ["numberFormat", "pattern"],
   ["backgroundColor"],
   ["textFormat", "foregroundColor"],
   ["textFormat", "fontFamily"],
   ["textFormat", "fontSize"],
   ["textFormat", "bold"],
   ["textFormat", "italic"],
   ["textFormat", "strikethrough"],
   ["textFormat", "underline"]]

def joinDot (p : List String) : String := String.intercalate "." p

/-- One iteration of the `CellFormat._merge_formats` loop for a single
property path: the merged dictionary first receives the intermediate
dictionaries along the path (the unconditional `setdefault` walk), then the
leaf is written from the local format if present there, else from the
default format if present there, else left absent. -/
def mergeProp (localFormat defaultFormat : Obj) (acc : Obj) (path : List String) : Obj :=
  match getPath localFormat path with
  | some v => setPath (ensureDirs acc path.dropLast) path v
  | none =>
    match getPath defaultFormat path with
    | some v => setPath (ensureDirs acc path.dropLast) path v
    | none => ensureDirs acc path.dropLast

/-- `CellFormat._merge_formats`, parameterized by the class's declared
property table (a list of property data paths). -/
def merge_formats (props : List (List String)) (localFormat defaultFormat : Obj) : Obj :=
  props.foldl (mergeProp localFormat defaultFormat) []

/-- The state of a `CellFormat` object (without the back-reference to its
owning cell, which the view model carries instead). -/
structure CellFormatS where
  localFormat : Obj
  defaultFormat : Obj
  currentFormat : Obj
  pendingFormat : Obj
  userEntered : Bool

/-- `CellFormat._reset_data`. -/
def CellFormatS.reset_data (f : CellFormatS) (localFormat defaultFormat : Obj) :
    CellFormatS :=
  { f with
    localFormat := localFormat
    defaultFormat := defaultFormat
    currentFormat := merge_formats cellFormatPropertyPaths localFormat defaultFormat
    pendingFormat := [] }

/-- `CellFormat.__init__`. -/
def CellFormatS.make (localFormat defaultFormat : Obj) (userEntered : Bool) :
    CellFormatS :=
  CellFormatS.reset_data
    { localFormat := [], defaultFormat := [], currentFormat := [],
      pendingFormat := [], userEntered := userEntered }
    localFormat defaultFormat

/-- The `number_format_type` property read: the descriptor looks the data
path up in the current format and decodes it, falling back to the declared
default `UNSPECIFIED` when absent.  (A present value that is not a valid
type string raises in the source; the embedding also falls back.) -/
def CellFormatS.numberFormatTypeGet (f : CellFormatS) : NumberFormatType :=
  match getPath f.currentFormat ["numberFormat", "type"] with
  | some (.str s) => (NumberFormatType.ofWire s).getD .UNSPECIFIED
  | _ => .UNSPECIFIED

/-- Insertion step of an ascending insertion sort on strings. -/
def insertSorted (a : String) : List String → List String
  | [] => [a]
  | b :: rest => if a ≤ b then a :: b :: rest else b :: insertSorted a rest

/-- Python `list.sort()` on strings (ascending lexicographic order). -/
def sortStrings (l : List String) : List String := l.foldr insertSorted []

/-- `CellFormat._get_pending_update` over the pending format dictionary:
collect the dotted data path of every property present in the pending
format; then, if the `numberFormat` group is present and non-empty, default
its `type` and `pattern` members, collapse the group's field-mask entries to
the single path `numberFormat`, and finally sort the field mask. -/
def get_pending_update (pending : Obj) : Obj × List String :=
  let fields := cellFormatPropertyPaths.filterMap
    (fun p => if (getPath pending p).isSome then some (joinDot p) else none)
  match objGet pending "numberFormat" with
  | some (.obj nf) =>
    if nf.isEmpty then (pending, sortStrings fields)
    else
      let nf2 := objSetdefault
        (objSetdefault nf "type" (.str "NUMBER_FORMAT_TYPE_UNSPECIFIED"))
        "pattern" (.str "")
      let pending2 := objSet pending "numberFormat" (.obj nf2)
      let fields2 := (fields.filter (fun f => !f.startsWith "numberFormat.")) ++
        ["numberFormat"]
      (pending2, sortStrings fields2)
  | _ => (pending, sortStrings fields)

/-! ## Cells (`cell.py`) -/

/-- The state of a `Cell` object (without the back-reference to its owning
view, which is passed explicitly to the operations that consult it). -/
structure CellS where
  row : Int
  col : Int
  userEnteredValue : Option Value
  effectiveValue : Option Value
  formattedValue : String
  userEnteredFormat : CellFormatS
  effectiveFormat : CellFormatS
  valueDirty : Bool
  formatDirty : Bool

/-- One `cell_data` entry of a range-fetch response; every member is
optional (`dict.get` with a default in the source). -/
structure CellData where
  userEnteredValue : Option ExtendedValue
  effectiveValue : Option ExtendedValue
  userEnteredFormat : Obj
  effectiveFormat : Obj
  formattedValue : Option String

def emptyCellData : CellData := ⟨none, none, [], [], none⟩

/-- `Cell.__init__` from a response `cell_data` entry. -/
def CellS.make (row col : Int) (cellData : CellData) (defaultFormat : Obj) : CellS :=
  let uef := CellFormatS.make cellData.userEnteredFormat defaultFormat true
  let ef := CellFormatS.make cellData.effectiveFormat defaultFormat false
  { row := row
    col := col
    userEnteredValue := parse_extended_value cellData.userEnteredValue uef.numberFormatTypeGet
    effectiveValue := parse_extended_value cellData.effectiveValue ef.numberFormatTypeGet
    formattedValue := cellData.formattedValue.getD ""
    userEnteredFormat := uef
    effectiveFormat := ef
    valueDirty := false
    formatDirty := false }

/-- `Cell._reset_data`. -/
def CellS.reset_data (c : CellS) (cellData : CellData) (defaultFormat : Obj) : CellS :=
  let uef := c.userEnteredFormat.reset_data cellData.userEnteredFormat defaultFormat
  let ef := c.effectiveFormat.reset_data cellData.effectiveFormat defaultFormat
  { c with
    userEnteredValue := parse_extended_value cellData.userEnteredValue uef.numberFormatTypeGet
    effectiveValue := parse_extended_value cellData.effectiveValue ef.numberFormatTypeGet
    formattedValue := cellData.formattedValue.getD ""
    userEnteredFormat := uef
    effectiveFormat := ef
    valueDirty := false
    formatDirty := false }

/-! ## Views (`view.py` / `worksheet.py`)

The `View` class of view.py and the `WorksheetView` class of worksheet.py
carry the same fields and identical `refresh`, `_get_cell`,
`_ensure_fetched` and `commit` methods; both are embedded once as
`ViewState`.  The ghost field `fetchCount` counts the network fetches
performed in `_ensure_fetched` (it models no Python state). -/

/-- Association-list lookup with Python dict semantics (first match). -/
def alistGet {α β : Type} [DecidableEq α] : List (α × β) → α → Option β
  | [], _ => none
  | (k, v) :: rest, key => if k = key then some v else alistGet rest key

/-- Association-list assignment with Python dict semantics (replace the
first matching entry in place, else append). -/
def alistSet {α β : Type} [DecidableEq α] : List (α × β) → α → β → List (α × β)
  | [], key, v => [(key, v)]
  | (k, w) :: rest, key, v =>
    if k = key then (k, v) :: rest else (k, w) :: alistSet rest key v

structure ViewState where
  sheetKey : Int
  startRow : Int
  endRow : Int
  startCol : Int
  endCol : Int
  cellMap : List ((Int × Int) × CellS)
  defaultFormat : Option Obj
  fetched : Bool
  fetchCount : Nat

/-- One `row_data` entry of a range-fetch response
(`row_data.get('values', [])`). -/
structure RowData where
  values : List CellData

/-- The part of a range-fetch response the view consumes:
`response['properties']['defaultFormat']` and
`response['sheets'][0]['data'][0]['rowData']`. -/
structure Response where
  defaultFormat : Obj
  rowData : List RowData

/-- The inner loop of `_ensure_fetched` over one row's `values`, starting at
column offset `j`. -/
def processValues (startCol : Int) (defFmt : Obj) (row : Int) :
    List ((Int × Int) × CellS) → Nat → List CellData → List ((Int × Int) × CellS)
  | m, _, [] => m
  | m, j, cd :: rest =>
    let loc : Int × Int := (row, startCol + (j : Int))
    let m2 := match alistGet m loc with
      | some c => alistSet m loc (c.reset_data cd defFmt)
      | none => alistSet m loc (CellS.make row (startCol + (j : Int)) cd defFmt)
    processValues startCol defFmt row m2 (j + 1) rest

/-- The outer loop of `_ensure_fetched` over `rowData`, starting at row
offset `i`. -/
def processRows (startRow startCol : Int) (defFmt : Obj) :
    List ((Int × Int) × CellS) → Nat → List RowData → List ((Int × Int) × CellS)
  | m, _, [] => m
  | m, i, rd :: rest =>
    processRows startRow startCol defFmt
      (processValues startCol defFmt (startRow + (i : Int)) m 0 rd.values)
      (i + 1) rest

/-- The locations covered by one row of the response, starting at `col`. -/
def coveredRow (row : Int) : Int → List CellData → List (Int × Int)
  | _, [] => []
  | col, _ :: rest => (row, col) :: coveredRow row (col + 1) rest

/-- All locations covered by the response's `rowData`: exactly those whose
entries the `_ensure_fetched` loops visit (and discard from
`cleared_locations`). -/
def coveredLocs : Int → Int → List RowData → List (Int × Int)
  | _, _, [] => []
  | row, startCol, rd :: rest =>
    coveredRow row startCol rd.values ++ coveredLocs (row + 1) startCol rest

/-- `_ensure_fetched`: a no-op on a fetched view; otherwise perform the
range fetch (the response is the explicit `resp` argument), store the
default format, construct or reset a cell for every covered location, and
reset every previously cached cell at an uncovered location to empty
(`cleared_locations`).  Cells created or reset by the loops are all at
covered locations, so resetting exactly the uncovered entries of the
processed map is the source's behaviour. -/
def ViewState.ensure_fetched (v : ViewState) (resp : Response) : ViewState :=
  if v.fetched then v
  else
    let defFmt := resp.defaultFormat
    let m1 := processRows v.startRow v.startCol defFmt v.cellMap 0 resp.rowData
    let cov := coveredLocs v.startRow v.startCol resp.rowData
    let m2 := m1.map (fun e =>
      if e.1 ∈ cov then e else (e.1, e.2.reset_data emptyCellData defFmt))
    { v with
      fetched := true
      defaultFormat := some defFmt
      cellMap := m2
      fetchCount := v.fetchCount + 1 }

/-- `refresh` of a view. -/
def ViewState.refreshView (v : ViewState) : ViewState :=
  { v with defaultFormat := none, fetched := false }

/-- `_get_cell`: the bounds checks precede the fetch; in range, the cell is
served from the identity cache or created empty.  (After `_ensure_fetched`
the default format is always set; `getD` covers the branch the source could
only reach by raising earlier.) -/
def ViewState.get_cell (v : ViewState) (resp : Response) (row col : Int) :
    ViewState × Except HyouErr CellS :=
  if ¬ (v.startRow ≤ row ∧ row < v.endRow) then
    (v, .error (.indexError "Row is out of this view"))
  else if ¬ (v.startCol ≤ col ∧ col < v.endCol) then
    (v, .error (.indexError "Column is out of this view"))
  else
    let v2 := v.ensure_fetched resp
    match alistGet v2.cellMap (row, col) with
    | some c => (v2, .ok c)
    | none =>
      let c := CellS.make row col emptyCellData (v2.defaultFormat.getD [])
      ({ v2 with cellMap := alistSet v2.cellMap (row, col) c }, .ok c)

/-- The `Cell.effective_value` property read.  The cell argument stands for
the Python `self` object; when the owning view holds a cell at `self`'s
coordinates it is that very object (reset in place by a pending fetch), which
the embedding models by re-reading the cell from the fetched view's map. -/
def CellS.read_effective_value (v : ViewState) (resp : Response) (c : CellS) :
    ViewState × Except HyouErr (Option Value) :=
  let v2 := v.ensure_fetched resp
  let self := (alistGet v2.cellMap (c.row, c.col)).getD c
  if v2.startRow ≤ c.row ∧ c.row < v2.endRow ∧ v2.startCol ≤ c.col ∧ c.col < v2.endCol then
    if self.valueDirty || self.formatDirty then
      (v2, .error (.uncommittedCellProperty "effective_value"))
    else (v2, .ok self.effectiveValue)
  else (v2, .error (.runtimeError "This cell no longer exists."))

/-- The `Cell.formatted_value` property read. -/
def CellS.read_formatted_value (v : ViewState) (resp : Response) (c : CellS) :
    ViewState × Except HyouErr String :=
  let v2 := v.ensure_fetched resp
  let self := (alistGet v2.cellMap (c.row, c.col)).getD c
  if v2.startRow ≤ c.row ∧ c.row < v2.endRow ∧ v2.startCol ≤ c.col ∧ c.col < v2.endCol then
    if self.valueDirty || self.formatDirty then
      (v2, .error (.uncommittedCellProperty "formatted_value"))
    else (v2, .ok self.formattedValue)
  else (v2, .error (.runtimeError "This cell no longer exists."))

/-- The `Cell.effective_format` property read. -/
def CellS.read_effective_format (v : ViewState) (resp : Response) (c : CellS) :
    ViewState × Except HyouErr CellFormatS :=
  let v2 := v.ensure_fetched resp
  let self := (alistGet v2.cellMap (c.row, c.col)).getD c
  if v2.startRow ≤ c.row ∧ c.row < v2.endRow ∧ v2.startCol ≤ c.col ∧ c.col < v2.endCol then
    if self.valueDirty || self.formatDirty then
      (v2, .error (.uncommittedCellProperty "effective_format"))
    else (v2, .ok self.effectiveFormat)
  else (v2, .error (.runtimeError "This cell no longer exists."))

/-! ## Update requests and commit -/

/-- One `updateCells` fragment as built by `Cell._build_update_request`:
the cell's absolute start coordinates, the optional `userEnteredValue` and
`userEnteredFormat` members of the single value object, and the
comma-joined field mask. -/
structure UpdateRequest where
  sheetId : Int
  rowIndex : Int
  columnIndex : Int
  userEnteredValue : Option (Option ExtendedValue)
  userEnteredFormat : Option Obj
  fields : String

/-- `Cell._build_update_request`: nothing when neither dirty flag is set,
otherwise one fragment with the value patch (if value-dirty) and/or the
format patch with prefixed field-mask entries (if format-dirty). -/
def CellS.build_update_request (sheetId : Int) (c : CellS) :
    Except HyouErr (Option UpdateRequest) :=
  if ¬ (c.valueDirty || c.formatDirty) then .ok none
  else
    let valuePart : Except HyouErr (Option (Option ExtendedValue) × List String) :=
      if c.valueDirty then
        match unparse_extended_value c.userEnteredValue with
        | .error e => .error e
        | .ok (ev, _) => .ok (some ev, ["userEnteredValue"])
      else .ok (none, [])
    match valuePart with
    | .error e => .error e
    | .ok (uev, fields1) =>
      let formatPart :=
        if c.formatDirty then
          let pu := get_pending_update c.userEnteredFormat.pendingFormat
          (some pu.1, pu.2.map (fun f => "userEnteredFormat." ++ f))
        else (none, [])
      .ok (some
        { sheetId := sheetId
          rowIndex := c.row
          columnIndex := c.col
          userEnteredValue := uev
          userEnteredFormat := formatPart.1
          fields := String.intercalate "," (fields1 ++ formatPart.2) })

/-- The request-collection loop of `commit` over the cell map's values. -/
def buildRequestsGo (sheetId : Int) :
    List ((Int × Int) × CellS) → Except HyouErr (List UpdateRequest)
  | [] => .ok []
  | (_, c) :: rest =>
    match c.build_update_request sheetId with
    | .error e => .error e
    | .ok none => buildRequestsGo sheetId rest
    | .ok (some r) =>
      match buildRequestsGo sheetId rest with
      | .error e => .error e
      | .ok rs => .ok (r :: rs)

def ViewState.build_update_requests (v : ViewState) : Except HyouErr (List UpdateRequest) :=
  buildRequestsGo v.sheetKey v.cellMap

/-- `commit`: build the update fragments (a pure read of local state), return
without any network call when there are none, otherwise perform the batch
network call (its outcome is the explicit `net` argument); on failure the
error propagates with no local state mutation, on success `refresh` is
invoked. -/
def ViewState.commit (v : ViewState) (net : Except HyouErr Unit) :
    ViewState × Except HyouErr Unit :=
  match v.build_update_requests with
  | .error e => (v, .error e)
  | .ok reqs =>
    if reqs.isEmpty then (v, .ok ())
    else
      match net with
      | .error e => (v, .error e)
      | .ok () => (v.refreshView, .ok ())

/-! ## Slicing -/

/-- The state of a `ViewRow` / `WorksheetViewRow`: a row index and a column
window into its owning view (held by reference in the source; passed
explicitly here). -/
structure ViewRowS where
  row : Int
  startCol : Int
  endCol : Int
  deriving DecidableEq

/-- Python `slice.indices` for step 1, one endpoint: `none` maps to the
default, a negative index counts from the end, and the result is clamped to
`[0, n]`. -/
def pyIndex1 (i : Option Int) (dflt : Nat) (n : Nat) : Nat :=
  match i with
  | none => dflt
  | some i =>
    let j := if i < 0 then i + (n : Int) else i
    (min (max j 0) (n : Int)).toNat

/-- Python `slice(start, stop).indices(n)` for step 1. -/
def pySliceIndices (start stop : Option Int) (n : Nat) : Nat × Nat :=
  (pyIndex1 start 0 n, pyIndex1 stop n n)

/-- `ViewRow.__getitem__` with a slice index: a new row over the same view
(and hence the same cell cache), with the narrowed column window. -/
def ViewRowS.slice (r : ViewRowS) (start stop : Option Int) : ViewRowS :=
  let n := (r.endCol - r.startCol).toNat
  let ab := pySliceIndices start stop n
  let b2 := if ab.2 < ab.1 then ab.1 else ab.2
  { row := r.row, startCol := r.startCol + (ab.1 : Int), endCol := r.startCol + (b2 : Int) }

/-- `ViewRow.__getitem__` with an integer index: negative indices count from
the end column; the lookup goes through the owning view's `_get_cell`. -/
def ViewRowS.getItem (v : ViewState) (resp : Response) (r : ViewRowS) (index : Int) :
    ViewState × Except HyouErr CellS :=
  let col := if index < 0 then r.endCol + index else r.startCol + index
  v.get_cell resp r.row col

/-- `Worksheet.view`: resolve the requested ranges with Python slice
semantics against the worksheet size, clamp an inverted range to be empty,
and build a fresh `WorksheetView` with an empty cell cache in the unfetched
state. -/
def worksheet_view (rows cols : Nat) (sheetKey : Int)
    (startRow endRow startCol endCol : Option Int) : ViewState :=
  let rr := pySliceIndices startRow endRow rows
  let cc := pySliceIndices startCol endCol cols
  let sr := if rr.2 < rr.1 then rr.2 else rr.1
  let sc := if cc.2 < cc.1 then cc.2 else cc.1
  { sheetKey := sheetKey
    startRow := (sr : Int)
    endRow := (rr.2 : Int)
    startCol := (sc : Int)
    endCol := (cc.2 : Int)
    cellMap := []
    defaultFormat := none
    fetched := false
    fetchCount := 0 }

/-! ## LazyOrderedDictionary (`util.py`) -/

/-- The state of a `LazyOrderedDictionary`: the enumerator's output and the
by-key constructor are carried as data, together with the ordered cache
list, the key-to-index map and the enumerated flag. -/
structure LOD (K V : Type) where
  enumerator : List (K × V)
  constructor : Option (K → Option V)
  cacheList : List (K × V)
  cacheIndex : List (K × Nat)
  enumerated : Bool

/-- `LazyOrderedDictionary.refresh`. -/
def LOD.refresh {K V : Type} (s : LOD K V) : LOD K V :=
  { s with cacheList := [], cacheIndex := [], enumerated := false }

/-- One step of `_ensure_enumerated`'s enumeration loop: record the key's
index (the current list length) and append the entry. -/
def enumStep {K V : Type} [DecidableEq K]
    (acc : List (K × V) × List (K × Nat)) (kv : K × V) :
    List (K × V) × List (K × Nat) :=
  (acc.1 ++ [kv], alistSet acc.2 kv.1 acc.1.length)

/-- One step of `_ensure_enumerated`'s restore loop: a saved entry whose key
the index knows is written back in place; otherwise the entry is appended —
and, as in the source, the index is not updated for it. -/
def restoreStep {K V : Type} [DecidableEq K]
    (acc : List (K × V) × List (K × Nat)) (kv : K × V) :
    List (K × V) × List (K × Nat) :=
  match alistGet acc.2 kv.1 with
  | some i => (acc.1.set i kv, acc.2)
  | none => (acc.1 ++ [kv], acc.2)

/-- `LazyOrderedDictionary._ensure_enumerated`. -/
def LOD.ensure_enumerated {K V : Type} [DecidableEq K] (s : LOD K V) : LOD K V :=
  if s.enumerated then s
  else
    let e := s.enumerator.foldl enumStep ([], [])
    let r := s.cacheList.foldl restoreStep e
    { s with cacheList := r.1, cacheIndex := r.2, enumerated := true }

/-- `LazyOrderedDictionary.keys` (the order `iterkeys` yields). -/
def LOD.keysList {K V : Type} [DecidableEq K] (s : LOD K V) : List K :=
  (s.ensure_enumerated).cacheList.map Prod.fst

/-- `LazyOrderedDictionary.__getitem__` with a (non-integer) key. -/
def LOD.getByKey {K V : Type} [DecidableEq K] (s : LOD K V) (key : K) :
    LOD K V × Except HyouErr V :=
  match alistGet s.cacheIndex key with
  | some i =>
    match s.cacheList[i]? with
    | some kv => (s, .ok kv.2)
    | none => (s, .error (.runtimeError "index out of cache list"))
  | none =>
    match s.constructor with
    | some ctor =>
      match ctor key with
      | none => (s, .error .keyError)
      | some v =>
        ({ s with
            cacheIndex := alistSet s.cacheIndex key s.cacheList.length
            cacheList := s.cacheList ++ [(key, v)] }, .ok v)
    | none =>
      let s2 := s.ensure_enumerated
      match alistGet s2.cacheIndex key with
      | some i =>
        match s2.cacheList[i]? with
        | some kv => (s2, .ok kv.2)
        | none => (s2, .error (.runtimeError "index out of cache list"))
      | none => (s2, .error .keyError)

/-! ## Serial conversion lemmas -/

lemma ratFloor_eq_intFloor (q : ℚ) : q.floor = ⌊q⌋ := by
  rw [Rat.floor_def']
  exact Rat.floor_def.symm

lemma usec_per_day_pos : (0 : ℚ) < (USEC_PER_DAY : ℚ) := by
  norm_num [USEC_PER_DAY]

/-- Round trip of the serial encoding on a day/microsecond pair with a
microsecond-of-day in range. -/
lemma serial_roundtrip (d : ℤ) (u : ℕ) (h : u < USEC_PER_DAY) :
    serialDay (datetime_to_serial d u) = d ∧
    serialUsec (datetime_to_serial d u) = u := by
  have hNpos : (0 : ℚ) < (USEC_PER_DAY : ℚ) := usec_per_day_pos
  have hfrac0 : (0 : ℚ) ≤ (u : ℚ) / (USEC_PER_DAY : ℚ) :=
    div_nonneg (by positivity) (le_of_lt hNpos)
  have hfrac1 : (u : ℚ) / (USEC_PER_DAY : ℚ) < 1 := by
    rw [div_lt_one hNpos]
    exact_mod_cast h
  have hday : serialDay (datetime_to_serial d u) = d := by
    rw [serialDay, ratFloor_eq_intFloor, datetime_to_serial, Int.floor_int_add]
    have : ⌊(u : ℚ) / (USEC_PER_DAY : ℚ)⌋ = 0 := by
      rw [Int.floor_eq_zero_iff]
      exact ⟨hfrac0, hfrac1⟩
    omega
  refine ⟨hday, ?_⟩
  have hfq : ⌊datetime_to_serial d u⌋ = d := by
    rw [← ratFloor_eq_intFloor]
    exact hday
  simp only [serialUsec, ratFloor_eq_intFloor]
  rw [hfq]
  have hsub : datetime_to_serial d u - (d : ℚ) = (u : ℚ) / (USEC_PER_DAY : ℚ) := by
    rw [datetime_to_serial]
    ring
  rw [hsub, div_mul_cancel₀ _ (ne_of_gt hNpos), Int.floor_natCast, Int.toNat_natCast]

/-! ## Claim theorems -/

/-- C4: the claim says `format_column_address` is the bijective base-26
numeral of the column index (so index 27 would be AB); the source's
digit-building loop never divides `k` by 26, so every digit repeats the
lowest one and index 27 evaluates to BB instead.  This evaluates the code at
the failing input 27 next to the spec's bijective base-26 numeral. -/
theorem format_column_address_diverges_at_27 :
    format_column_address 27 = "BB" ∧ bijectiveColumnName 27 = "AB" ∧
    format_column_address 27 ≠ bijectiveColumnName 27 := by
  have hcode : format_column_address 27 = "BB" := by
    simp [format_column_address, fcaLoop]
    rfl
  have hspec : bijectiveColumnName 27 = "AB" := by
    simp [bijectiveColumnName]
  refine ⟨hcode, hspec, ?_⟩
  rw [hcode, hspec]
  decide

/-- C3: for every supported typed value (string, boolean, integer, formula
reference, date, time, datetime) decoding the encoded wire value — with the
decode format context's number format type set to the encoder's inferred
type, or plain when none was inferred — yields the value back, and every
error-marker value fails to encode with an unencodable-value error. -/
theorem value_codec_round_trip (v : Value) :
    (v.supported = true → codecRoundTrip (some v) = .ok (some v)) ∧
    (v.isErrorValue = true →
      unparse_extended_value (some v) =
        .error (.valueError "ErrorValue can not be unparsed.")) := by
  cases v with
  | str s => exact ⟨fun _ => rfl, fun h => by simp [Value.isErrorValue] at h⟩
  | bool b => exact ⟨fun _ => rfl, fun h => by simp [Value.isErrorValue] at h⟩
  | int n => exact ⟨fun _ => rfl, fun h => by simp [Value.isErrorValue] at h⟩
  | float q =>
    exact ⟨fun h => by simp [Value.supported] at h,
      fun h => by simp [Value.isErrorValue] at h⟩
  | formula f => exact ⟨fun _ => rfl, fun h => by simp [Value.isErrorValue] at h⟩
  | error e => exact ⟨fun h => by simp [Value.supported] at h, fun _ => rfl⟩
  | date d =>
    refine ⟨fun _ => ?_, fun h => by simp [Value.isErrorValue] at h⟩
    have hs := serial_roundtrip d 0 (by norm_num [USEC_PER_DAY])
    simp [codecRoundTrip, unparse_extended_value, parse_extended_value,
      WireNum.toRat, hs.1]
  | time u =>
    refine ⟨fun h => ?_, fun h => by simp [Value.isErrorValue] at h⟩
    have hu : u < USEC_PER_DAY := by simpa [Value.supported] using h
    have hs := serial_roundtrip 0 u hu
    simp [codecRoundTrip, unparse_extended_value, parse_extended_value,
      WireNum.toRat, hs.2]
  | datetime d u =>
    refine ⟨fun h => ?_, fun h => by simp [Value.isErrorValue] at h⟩
    have hu : u < USEC_PER_DAY := by simpa [Value.supported] using h
    have hs := serial_roundtrip d u hu
    simp [codecRoundTrip, unparse_extended_value, parse_extended_value,
      WireNum.toRat, hs.1, hs.2]

/-- Witness for C3 at concrete inputs: a datetime value round-trips and an
error marker fails to encode. -/
theorem value_codec_round_trip_witness :
    codecRoundTrip (some (Value.datetime 5 123)) = .ok (some (Value.datetime 5 123)) ∧
    unparse_extended_value (some (Value.error "ERR")) =
      .error (.valueError "ErrorValue can not be unparsed.") :=
  ⟨(value_codec_round_trip (Value.datetime 5 123)).1 (by decide),
   (value_codec_round_trip (Value.error "ERR")).2 (by decide)⟩

/-! ## Concrete fixtures shared by the claim theorems -/

/-- An empty cell as the view creates it for an uncovered location. -/
def baseCell : CellS := CellS.make 0 0 emptyCellData []

/-- A cell with a pending (uncommitted) value edit. -/
def dirtyCell : CellS :=
  { baseCell with
    valueDirty := true
    userEnteredValue := some (.str "x")
    effectiveValue := some (.str "old") }

/-- A 1x1 view that has not fetched yet but already caches `dirtyCell`. -/
def unfetchedView : ViewState :=
  { sheetKey := 1, startRow := 0, endRow := 1, startCol := 0, endCol := 1,
    cellMap := [((0, 0), dirtyCell)], defaultFormat := none,
    fetched := false, fetchCount := 0 }

/-- The same 1x1 view in the fetched state. -/
def fetchedView : ViewState :=
  { unfetchedView with defaultFormat := some [], fetched := true, fetchCount := 1 }

/-- A response whose single cell carries a fresh server-side effective
value. -/
def freshResponse : Response :=
  { defaultFormat := []
    rowData := [⟨[{ emptyCellData with effectiveValue := some (.stringValue "new") }]⟩] }

/-! ## C1 -/

/-- C1 counterexample: the claim says a read of `effective_value` on a cell
whose value-dirty flag is true always raises an uncommitted-state error; on
an unfetched view (the state `commit` or `refresh` leaves behind) the read
first re-fetches, which resets the cell from the server response and clears
both flags, and then succeeds with the fresh server state. -/
theorem cell_dirty_read_succeeds_after_implicit_refetch :
    dirtyCell.valueDirty = true ∧ unfetchedView.fetched = false ∧
    (CellS.read_effective_value unfetchedView freshResponse dirtyCell).2 =
      .ok (some (Value.str "new")) := by
  refine ⟨rfl, rfl, ?_⟩
  rfl

/-- C1 (amended): on a cell of a fetched view, reading `effective_value`,
`formatted_value` or `effective_format` while the value-dirty or
format-dirty flag is true raises an uncommitted-state error, and with both
flags false (e.g. after a commit and a fresh fetch) each read succeeds and
returns the stored server state.  (When the view is unfetched the read
first re-fetches, clearing the flags, and succeeds — see the
counterexample.) -/
theorem cell_dirty_reads_gated (v : ViewState) (resp : Response) (c : CellS)
    (hfetch : v.fetched = true)
    (hmap : alistGet v.cellMap (c.row, c.col) = some c)
    (h1 : v.startRow ≤ c.row) (h2 : c.row < v.endRow)
    (h3 : v.startCol ≤ c.col) (h4 : c.col < v.endCol) :
    ((c.valueDirty || c.formatDirty) = true →
      CellS.read_effective_value v resp c =
        (v, .error (.uncommittedCellProperty "effective_value")) ∧
      CellS.read_formatted_value v resp c =
        (v, .error (.uncommittedCellProperty "formatted_value")) ∧
      CellS.read_effective_format v resp c =
        (v, .error (.uncommittedCellProperty "effective_format"))) ∧
    ((c.valueDirty || c.formatDirty) = false →
      CellS.read_effective_value v resp c = (v, .ok c.effectiveValue) ∧
      CellS.read_formatted_value v resp c = (v, .ok c.formattedValue) ∧
      CellS.read_effective_format v resp c = (v, .ok c.effectiveFormat)) := by
  have hv2 : v.ensure_fetched resp = v := by
    simp [ViewState.ensure_fetched, hfetch]
  constructor <;> intro hd <;> refine ⟨?_, ?_, ?_⟩ <;>
    simp [CellS.read_effective_value, CellS.read_formatted_value,
      CellS.read_effective_format, hv2, hmap, h1, h2, h3, h4, hd]

/-- Witness for C1's amended theorem: on the concrete fetched view the
dirty cell's `effective_value` read raises the uncommitted-state error. -/
theorem cell_dirty_reads_gated_witness :
    CellS.read_effective_value fetchedView freshResponse dirtyCell =
      (fetchedView, .error (.uncommittedCellProperty "effective_value")) :=
  ((cell_dirty_reads_gated fetchedView freshResponse dirtyCell rfl rfl
    (by decide) (by decide) (by decide) (by decide)).1 rfl).1

/-! ## C5 -/

/-- C5: `_get_cell` succeeds exactly on the coordinates inside the view's
window; outside it returns an out-of-range index error with the view state
unchanged — in particular without fetching and without creating a cell. -/
theorem view_get_cell_bounds (v : ViewState) (resp : Response) (row col : Int) :
    ((v.get_cell resp row col).2.isOk = true ↔
      (v.startRow ≤ row ∧ row < v.endRow ∧ v.startCol ≤ col ∧ col < v.endCol)) ∧
    (¬ (v.startRow ≤ row ∧ row < v.endRow ∧ v.startCol ≤ col ∧ col < v.endCol) →
      ∃ msg, v.get_cell resp row col = (v, .error (.indexError msg))) := by
  by_cases hr : v.startRow ≤ row ∧ row < v.endRow
  · by_cases hc : v.startCol ≤ col ∧ col < v.endCol
    · have hok : (v.get_cell resp row col).2.isOk = true := by
        cases halist : alistGet (v.ensure_fetched resp).cellMap (row, col) with
        | none =>
          simp [ViewState.get_cell, hr.1, hr.2, hc.1, hc.2, halist, Except.isOk, Except.toBool]
        | some c =>
          simp [ViewState.get_cell, hr.1, hr.2, hc.1, hc.2, halist, Except.isOk, Except.toBool]
      refine ⟨⟨fun _ => ⟨hr.1, hr.2, hc.1, hc.2⟩, fun _ => hok⟩, fun hout => ?_⟩
      exact absurd ⟨hr.1, hr.2, hc.1, hc.2⟩ hout
    · have herr : v.get_cell resp row col =
          (v, .error (.indexError "Column is out of this view")) := by
        simp [ViewState.get_cell, hr.1, hr.2, hc]
      refine ⟨⟨fun hok => ?_, fun hin => ?_⟩, fun _ => ⟨_, herr⟩⟩
      · rw [herr] at hok
        simp [Except.isOk, Except.toBool] at hok
      · exact absurd ⟨hin.2.2.1, hin.2.2.2⟩ hc
  · have herr : v.get_cell resp row col =
        (v, .error (.indexError "Row is out of this view")) := by
      simp [ViewState.get_cell, hr]
    refine ⟨⟨fun hok => ?_, fun hin => ?_⟩, fun _ => ⟨_, herr⟩⟩
    · rw [herr] at hok
      simp [Except.isOk, Except.toBool] at hok
    · exact absurd ⟨hin.1, hin.2.1⟩ hr

/-- Witness for C5 at concrete inputs: an out-of-window read on a concrete
view fails with an index error leaving the view untouched, and an in-window
read succeeds. -/
theorem view_get_cell_bounds_witness :
    (∃ msg, fetchedView.get_cell freshResponse 5 0 =
      (fetchedView, .error (.indexError msg))) ∧
    (fetchedView.get_cell freshResponse 0 0).2.isOk = true := by
  refine ⟨(view_get_cell_bounds fetchedView freshResponse 5 0).2 (by decide), ?_⟩
  exact ((view_get_cell_bounds fetchedView freshResponse 0 0).1).mpr (by decide)

/-! ## C2 -/

/-- The concrete view used for the C2 witness: one cached cell with a
pending value edit. -/
def dirtyView : ViewState :=
  { sheetKey := 1, startRow := 0, endRow := 1, startCol := 0, endCol := 1,
    cellMap := [((0, 0), dirtyCell)], defaultFormat := some [],
    fetched := true, fetchCount := 1 }

/-- The update requests `dirtyView` builds. -/
def dirtyViewRequests : List UpdateRequest :=
  [{ sheetId := 1, rowIndex := 0, columnIndex := 0,
     userEnteredValue := some (some (.stringValue "x")),
     userEnteredFormat := none, fields := "userEnteredValue" }]

/-- C2: `commit` is atomic with respect to local state.  When the batch
network call fails, the returned state is the unchanged view — every cached
cell (with its dirty flags) is exactly as before, the fetched flag and cell
cache are untouched — and rebuilding the update requests afterwards yields
the same fragments; `refresh` is applied only when the batch call
succeeds. -/
theorem commit_atomic_on_transport_error (v : ViewState) (e : HyouErr)
    (reqs : List UpdateRequest)
    (hreqs : v.build_update_requests = .ok reqs) (hne : reqs ≠ []) :
    v.commit (.error e) = (v, .error e) ∧
    (v.commit (.error e)).1.build_update_requests = .ok reqs ∧
    (∀ loc c, alistGet v.cellMap loc = some c →
      alistGet (v.commit (.error e)).1.cellMap loc = some c) ∧
    v.commit (.ok ()) = (v.refreshView, .ok ()) := by
  have hie : reqs.isEmpty = false := by
    cases reqs with
    | nil => exact absurd rfl hne
    | cons a t => rfl
  have h1 : v.commit (.error e) = (v, .error e) := by
    simp [ViewState.commit, hreqs, hie]
  have h2 : v.commit (.ok ()) = (v.refreshView, .ok ()) := by
    simp [ViewState.commit, hreqs, hie]
  refine ⟨h1, ?_, ?_, h2⟩
  · rw [h1]
    exact hreqs
  · intro loc c hc
    rw [h1]
    exact hc

/-- Witness for C2 at a concrete dirty view: a failed batch call leaves the
view unchanged with the error propagated, and a successful one refreshes. -/
theorem commit_atomic_on_transport_error_witness :
    dirtyView.commit (.error .keyError) = (dirtyView, .error .keyError) ∧
    dirtyView.commit (.ok ()) = (dirtyView.refreshView, .ok ()) := by
  have h := commit_atomic_on_transport_error dirtyView .keyError
    dirtyViewRequests rfl (by simp [dirtyViewRequests])
  exact ⟨h.1, h.2.2.2⟩

/-! ## Association-list and sorting lemmas -/

lemma objGet_objSet_self (o : Obj) (k : String) (v : JsonVal) :
    objGet (objSet o k v) k = some v := by
  induction o with
  | nil => simp [objSet, objGet]
  | cons hd t ih =>
    obtain ⟨k0, v0⟩ := hd
    by_cases hk : k0 = k
    · simp [objSet, objGet, hk]
    · simp [objSet, objGet, hk, ih]

lemma objGet_objSet_other (o : Obj) (k k2 : String) (v : JsonVal) (h : k2 ≠ k) :
    objGet (objSet o k v) k2 = objGet o k2 := by
  induction o with
  | nil => simp [objSet, objGet, Ne.symm h]
  | cons hd t ih =>
    obtain ⟨k0, v0⟩ := hd
    by_cases hk : k0 = k
    · subst hk
      simp [objSet, objGet, Ne.symm h]
    · simp [objSet, objGet, hk, ih]

lemma objGet_objSetdefault_same (o : Obj) (k : String) (d : JsonVal) :
    objGet (objSetdefault o k d) k = some ((objGet o k).getD d) := by
  induction o with
  | nil => simp [objSetdefault, objGet]
  | cons hd t ih =>
    obtain ⟨k0, v0⟩ := hd
    by_cases hk : k0 = k
    · simp [objSetdefault, objGet, hk]
    · simp [objSetdefault, objGet, hk, ih]

lemma objGet_objSetdefault_other (o : Obj) (k k2 : String) (d : JsonVal)
    (h : k2 ≠ k) :
    objGet (objSetdefault o k d) k2 = objGet o k2 := by
  induction o with
  | nil => simp [objSetdefault, objGet, Ne.symm h]
  | cons hd t ih =>
    obtain ⟨k0, v0⟩ := hd
    by_cases hk : k0 = k
    · subst hk
      simp [objSetdefault, objGet, Ne.symm h]
    · simp [objSetdefault, objGet, hk, ih]

/-- Occurrence count of a string in a list. -/
def countStr (x : String) : List String → Nat
  | [] => 0
  | a :: t => (if a = x then 1 else 0) + countStr x t

lemma countStr_append (x : String) (l1 l2 : List String) :
    countStr x (l1 ++ l2) = countStr x l1 + countStr x l2 := by
  induction l1 with
  | nil => simp [countStr]
  | cons a t ih => simp [countStr, ih]; omega

lemma countStr_eq_zero (x : String) (l : List String) (h : x ∉ l) :
    countStr x l = 0 := by
  induction l with
  | nil => rfl
  | cons a t ih =>
    have hax : a ≠ x := fun he => h (he ▸ List.mem_cons_self a t)
    have ht : x ∉ t := fun hm => h (List.mem_cons_of_mem a hm)
    simp [countStr, hax, ih ht]

lemma mem_insertSorted (a x : String) (l : List String) :
    x ∈ insertSorted a l ↔ x = a ∨ x ∈ l := by
  induction l with
  | nil => simp [insertSorted]
  | cons b t ih =>
    by_cases hab : a ≤ b
    · simp [insertSorted, hab]
    · simp [insertSorted, hab, ih]
      tauto

lemma countStr_insertSorted (x a : String) (l : List String) :
    countStr x (insertSorted a l) = (if a = x then 1 else 0) + countStr x l := by
  induction l with
  | nil => simp [insertSorted, countStr]
  | cons b t ih =>
    by_cases hab : a ≤ b
    · simp [insertSorted, hab, countStr]
    · simp [insertSorted, hab, countStr, ih]
      omega

lemma mem_sortStrings (x : String) (l : List String) :
    x ∈ sortStrings l ↔ x ∈ l := by
  induction l with
  | nil => simp [sortStrings]
  | cons a t ih =>
    simp only [sortStrings, List.foldr_cons]
    rw [mem_insertSorted]
    simp only [sortStrings] at ih
    rw [ih]
    simp

lemma countStr_sortStrings (x : String) (l : List String) :
    countStr x (sortStrings l) = countStr x l := by
  induction l with
  | nil => rfl
  | cons a t ih =>
    simp only [sortStrings, List.foldr_cons]
    rw [countStr_insertSorted]
    simp only [sortStrings] at ih
    rw [ih, countStr]

/-! ## C6 -/

/-- The dotted data paths of the declared properties, evaluated. -/
lemma joined_paths_concrete :
    cellFormatPropertyPaths.map joinDot =
      ["numberFormat.type", "numberFormat.pattern", "backgroundColor",
       "textFormat.foregroundColor", "textFormat.fontFamily",
       "textFormat.fontSize", "textFormat.bold", "textFormat.italic",
       "textFormat.strikethrough", "textFormat.underline"] := by
  rfl

/-- Every entry of the pre-collapse field list is the dotted path of a
declared property. -/
lemma mem_pending_fields (pending : Obj) (s : String)
    (hs : s ∈ cellFormatPropertyPaths.filterMap
      (fun p => if (getPath pending p).isSome then some (joinDot p) else none)) :
    s ∈ cellFormatPropertyPaths.map joinDot := by
  rcases List.mem_filterMap.mp hs with ⟨p, hp, hif⟩
  refine List.mem_map.mpr ⟨p, hp, ?_⟩
  by_cases hc : (getPath pending p).isSome
  · rw [if_pos hc] at hif
    exact Option.some.inj hif
  · rw [if_neg hc] at hif
    exact absurd hif (Option.noConfusion)

/-- C6: whenever the pending format's `numberFormat` group is present and
non-empty (some sub-field of the group was set), `_get_pending_update`
returns a field mask containing the path `numberFormat` exactly once and no
`numberFormat.`-prefixed path, and a patch whose `numberFormat` object holds
both `type` and `pattern`, keeping a set member and defaulting an unset one
(`NUMBER_FORMAT_TYPE_UNSPECIFIED` for `type`, the empty string for
`pattern`). -/
theorem pending_update_number_format_collapse (pending nf : Obj)
    (hnf : objGet pending "numberFormat" = some (.obj nf))
    (hne : nf.isEmpty = false) :
    countStr "numberFormat" (get_pending_update pending).2 = 1 ∧
    (∀ s ∈ (get_pending_update pending).2, s.startsWith "numberFormat." = false) ∧
    (∃ nf2, objGet (get_pending_update pending).1 "numberFormat" = some (.obj nf2) ∧
      objGet nf2 "type" =
        some ((objGet nf "type").getD (.str "NUMBER_FORMAT_TYPE_UNSPECIFIED")) ∧
      objGet nf2 "pattern" = some ((objGet nf "pattern").getD (.str ""))) := by
  have hres : get_pending_update pending =
      (objSet pending "numberFormat" (.obj (objSetdefault
          (objSetdefault nf "type" (.str "NUMBER_FORMAT_TYPE_UNSPECIFIED"))
          "pattern" (.str ""))),
       sortStrings (((cellFormatPropertyPaths.filterMap
          (fun p => if (getPath pending p).isSome then some (joinDot p) else none)).filter
            (fun f => !f.startsWith "numberFormat.")) ++ ["numberFormat"])) := by
    simp [get_pending_update, hnf, hne]
  rw [hres]
  refine ⟨?_, ?_, ?_⟩
  · rw [countStr_sortStrings, countStr_append]
    have hnotin : "numberFormat" ∉
        ((cellFormatPropertyPaths.filterMap
          (fun p => if (getPath pending p).isSome then some (joinDot p) else none)).filter
            (fun f => !f.startsWith "numberFormat.")) := by
      intro hmem
      have h2 := mem_pending_fields pending _ (List.mem_filter.mp hmem).1
      rw [joined_paths_concrete] at h2
      exact absurd h2 (by decide)
    rw [countStr_eq_zero _ _ hnotin]
    rfl
  · intro s hs
    rw [mem_sortStrings] at hs
    rcases List.mem_append.mp hs with ha | hb
    · have hp := (List.mem_filter.mp ha).2
      simpa using hp
    · have : s = "numberFormat" := by simpa using hb
      subst this
      decide
  · refine ⟨_, objGet_objSet_self _ _ _, ?_, ?_⟩
    · rw [objGet_objSetdefault_other _ _ _ _ (by decide),
        objGet_objSetdefault_same]
    · rw [objGet_objSetdefault_same,
        objGet_objSetdefault_other _ _ _ _ (by decide)]

/-- Witness for C6 at a concrete pending format with `numberFormat.type` set
and `numberFormat.pattern` unset. -/
theorem pending_update_number_format_collapse_witness :
    countStr "numberFormat"
      (get_pending_update [("numberFormat", .obj [("type", .str "DATE")])]).2 = 1 ∧
    (∀ s ∈ (get_pending_update [("numberFormat", .obj [("type", .str "DATE")])]).2,
      s.startsWith "numberFormat." = false) ∧
    (∃ nf2, objGet
        (get_pending_update [("numberFormat", .obj [("type", .str "DATE")])]).1
        "numberFormat" = some (.obj nf2) ∧
      objGet nf2 "type" =
        some ((objGet [("type", JsonVal.str "DATE")] "type").getD
          (.str "NUMBER_FORMAT_TYPE_UNSPECIFIED")) ∧
      objGet nf2 "pattern" =
        some ((objGet [("type", JsonVal.str "DATE")] "pattern").getD (.str ""))) :=
  pending_update_number_format_collapse
    [("numberFormat", .obj [("type", .str "DATE")])]
    [("type", .str "DATE")] rfl rfl

/-! ## Path lemmas for the format merge (C7) -/

/-- Two property paths diverge when neither is a prefix of the other (as
boolean list comparisons); the declared property table satisfies this
pairwise. -/
def pathsDiverge (p q : List String) : Prop :=
  p.isPrefixOf q = false ∧ q.isPrefixOf p = false

instance (p q : List String) : Decidable (pathsDiverge p q) :=
  inferInstanceAs (Decidable (_ ∧ _))

lemma pathsDiverge_symm {p q : List String} (h : pathsDiverge p q) :
    pathsDiverge q p := ⟨h.2, h.1⟩

lemma nil_isPrefixOf (l : List String) : List.isPrefixOf [] l = true := by
  cases l <;> rfl

lemma pathsDiverge_left_ne_nil {p q : List String} (h : pathsDiverge p q) :
    p ≠ [] := by
  intro he
  subst he
  obtain ⟨h1, _⟩ := h
  rw [nil_isPrefixOf q] at h1
  exact Bool.noConfusion h1

lemma pathsDiverge_uncons {a : String} {p' q' : List String}
    (h : pathsDiverge (a :: p') (a :: q')) : pathsDiverge p' q' := by
  obtain ⟨h1, h2⟩ := h
  simp only [List.isPrefixOf, beq_self_eq_true, Bool.true_and] at h1 h2
  exact ⟨h1, h2⟩

lemma isPrefixOf_length_le (p l : List String) (h : p.isPrefixOf l = true) :
    p.length ≤ l.length := by
  induction p generalizing l with
  | nil => simp
  | cons a p' ih =>
    cases l with
    | nil => simp [List.isPrefixOf] at h
    | cons b l' =>
      simp only [List.isPrefixOf, Bool.and_eq_true] at h
      simpa using ih l' h.2

lemma isPrefixOf_append_right (p l l2 : List String)
    (h : p.isPrefixOf l = true) : p.isPrefixOf (l ++ l2) = true := by
  induction p generalizing l with
  | nil => simp [List.isPrefixOf]
  | cons a p' ih =>
    cases l with
    | nil => simp [List.isPrefixOf] at h
    | cons b l' =>
      simp only [List.isPrefixOf, Bool.and_eq_true] at h
      simp only [List.cons_append, List.isPrefixOf, Bool.and_eq_true]
      exact ⟨h.1, ih l' h.2⟩

lemma self_isPrefixOf_dropLast_false (p : List String) (hp : p ≠ []) :
    p.isPrefixOf p.dropLast = false := by
  by_contra hcon
  rw [Bool.not_eq_false] at hcon
  have hle := isPrefixOf_length_le _ _ hcon
  rw [List.length_dropLast] at hle
  have : 0 < p.length := List.length_pos.mpr hp
  omega

lemma isPrefixOf_dropLast_false (p q : List String) (hq : q ≠ [])
    (h : p.isPrefixOf q = false) : p.isPrefixOf q.dropLast = false := by
  by_contra hcon
  rw [Bool.not_eq_false] at hcon
  have := isPrefixOf_append_right p q.dropLast [q.getLast hq] hcon
  rw [List.dropLast_append_getLast hq] at this
  rw [this] at h
  exact Bool.true_eq_false.mp h

lemma lookupPath_non_obj (w : JsonVal) (p : List String)
    (hw : ∀ o, w ≠ JsonVal.obj o) (hp : p ≠ []) : lookupPath w p = none := by
  cases p with
  | nil => exact absurd rfl hp
  | cons a p' =>
    cases w with
    | obj o => exact absurd rfl (hw o)
    | str s => rfl
    | num q => rfl
    | bool b => rfl

lemma getPath_nil_of_ne_nil (p : List String) (hp : p ≠ []) :
    getPath [] p = none := by
  cases p with
  | nil => exact absurd rfl hp
  | cons a p' => rfl

/-- Writing at a nonempty path makes that path readable with the written
value. -/
lemma getPath_setPath_self (p : List String) (hp : p ≠ []) :
    ∀ (o : Obj) (v : JsonVal), getPath (setPath o p v) p = some v := by
  induction p with
  | nil => exact absurd rfl hp
  | cons k rest ih =>
    intro o v
    cases rest with
    | nil =>
      simp [setPath, getPath, lookupPath, objGet_objSet_self]
    | cons k2 r2 =>
      have h2 := ih (by simp)
      simp only [setPath, getPath, lookupPath, objGet_objSet_self]
      exact h2 _ v

/-- Writing at a diverging path does not change what a path reads. -/
lemma getPath_setPath_diverge (q : List String) :
    ∀ (p : List String) (o : Obj) (v : JsonVal), pathsDiverge p q →
      getPath (setPath o q v) p = getPath o p := by
  induction q with
  | nil =>
    intro p o v h
    obtain ⟨_, h2⟩ := h
    rw [nil_isPrefixOf p] at h2
    exact Bool.noConfusion h2
  | cons b q' ih =>
    intro p o v h
    cases p with
    | nil =>
      obtain ⟨h1, _⟩ := h
      rw [nil_isPrefixOf (b :: q')] at h1
      exact Bool.noConfusion h1
    | cons a p' =>
      by_cases hab : a = b
      · subst hab
        have hdiv' : pathsDiverge p' q' := pathsDiverge_uncons h
        have hp' : p' ≠ [] := pathsDiverge_left_ne_nil hdiv'
        have hq' : q' ≠ [] := pathsDiverge_left_ne_nil (pathsDiverge_symm hdiv')
        cases q' with
        | nil => exact absurd rfl hq'
        | cons q2 qr =>
          have hnil := ih p' [] v hdiv'
          rw [getPath_nil_of_ne_nil p' hp'] at hnil
          cases hob : objGet o a with
          | none =>
            simp only [setPath, getPath, lookupPath, objGet_objSet_self, hob]
            exact hnil
          | some w =>
            cases w with
            | obj io =>
              simp only [setPath, getPath, lookupPath, objGet_objSet_self, hob]
              exact ih p' io v hdiv'
            | str s =>
              simp only [setPath, getPath, lookupPath, objGet_objSet_self, hob]
              rw [lookupPath_non_obj (JsonVal.str s) p'
                (fun o2 he => JsonVal.noConfusion he) hp']
              exact hnil
            | num n =>
              simp only [setPath, getPath, lookupPath, objGet_objSet_self, hob]
              rw [lookupPath_non_obj (JsonVal.num n) p'
                (fun o2 he => JsonVal.noConfusion he) hp']
              exact hnil
            | bool bb =>
              simp only [setPath, getPath, lookupPath, objGet_objSet_self, hob]
              rw [lookupPath_non_obj (JsonVal.bool bb) p'
                (fun o2 he => JsonVal.noConfusion he) hp']
              exact hnil
      · cases q' with
        | nil =>
          simp [setPath, getPath, lookupPath, objGet_objSet_other _ _ _ _ hab]
        | cons q2 qr =>
          simp [setPath, getPath, lookupPath, objGet_objSet_other _ _ _ _ hab]

/-- Creating intermediate dictionaries along directions that the path is not
a prefix of does not change what the path reads. -/
lemma getPath_ensureDirs (dirs : List String) :
    ∀ (p : List String) (o : Obj), p.isPrefixOf dirs = false →
      getPath (ensureDirs o dirs) p = getPath o p := by
  induction dirs with
  | nil => intro p o _; rfl
  | cons k dirs' ih =>
    intro p o h
    cases p with
    | nil =>
      rw [nil_isPrefixOf (k :: dirs')] at h
      exact Bool.noConfusion h
    | cons a p' =>
      by_cases hak : a = k
      · subst hak
        have h' : p'.isPrefixOf dirs' = false := by
          simp only [List.isPrefixOf, beq_self_eq_true, Bool.true_and] at h
          exact h
        have hp' : p' ≠ [] := by
          intro he
          subst he
          rw [nil_isPrefixOf dirs'] at h'
          exact Bool.noConfusion h'
        have hnil := ih p' [] h'
        rw [getPath_nil_of_ne_nil p' hp'] at hnil
        cases hob : objGet o a with
        | none =>
          simp only [ensureDirs, getPath, lookupPath, objGet_objSet_self, hob]
          exact hnil
        | some w =>
          cases w with
          | obj io =>
            simp only [ensureDirs, getPath, lookupPath, objGet_objSet_self, hob]
            exact ih p' io h'
          | str s =>
            simp only [ensureDirs, getPath, lookupPath, objGet_objSet_self, hob]
            rw [lookupPath_non_obj (JsonVal.str s) p'
              (fun o2 he => JsonVal.noConfusion he) hp']
            exact hnil
          | num n =>
            simp only [ensureDirs, getPath, lookupPath, objGet_objSet_self, hob]
            rw [lookupPath_non_obj (JsonVal.num n) p'
              (fun o2 he => JsonVal.noConfusion he) hp']
            exact hnil
          | bool bb =>
            simp only [ensureDirs, getPath, lookupPath, objGet_objSet_self, hob]
            rw [lookupPath_non_obj (JsonVal.bool bb) p'
              (fun o2 he => JsonVal.noConfusion he) hp']
            exact hnil
      · simp [ensureDirs, getPath, lookupPath, objGet_objSet_other _ _ _ _ hak]

/-- Processing a diverging property leaves a path's read unchanged. -/
lemma getPath_mergeProp_diverge (l d acc : Obj) (p q : List String)
    (h : pathsDiverge p q) :
    getPath (mergeProp l d acc q) p = getPath acc p := by
  have hq : q ≠ [] := pathsDiverge_left_ne_nil (pathsDiverge_symm h)
  have hdirs : p.isPrefixOf q.dropLast = false :=
    isPrefixOf_dropLast_false p q hq h.1
  cases hlq : getPath l q with
  | some v =>
    simp only [mergeProp, hlq]
    rw [getPath_setPath_diverge q p _ v h, getPath_ensureDirs _ p acc hdirs]
  | none =>
    cases hdq : getPath d q with
    | some v =>
      simp only [mergeProp, hlq, hdq]
      rw [getPath_setPath_diverge q p _ v h, getPath_ensureDirs _ p acc hdirs]
    | none =>
      simp only [mergeProp, hlq, hdq]
      rw [getPath_ensureDirs _ p acc hdirs]

/-- Processing a property makes its own path read the local value when
present, else the default value when present, else whatever the accumulator
already read. -/
lemma getPath_mergeProp_self (l d acc : Obj) (p : List String) (hp : p ≠ []) :
    getPath (mergeProp l d acc p) p =
      match getPath l p with
      | some v => some v
      | none =>
        match getPath d p with
        | some v => some v
        | none => getPath acc p := by
  have hdirs : p.isPrefixOf p.dropLast = false :=
    self_isPrefixOf_dropLast_false p hp
  cases hlp : getPath l p with
  | some v =>
    simp only [mergeProp, hlp]
    rw [getPath_setPath_self p hp]
  | none =>
    cases hdp : getPath d p with
    | some v =>
      simp only [mergeProp, hlp, hdp]
      rw [getPath_setPath_self p hp]
    | none =>
      simp only [mergeProp, hlp, hdp]
      rw [getPath_ensureDirs _ p acc hdirs]

/-- Folding over properties that all diverge from a path leaves the path's
read unchanged. -/
lemma getPath_mergeFold_diverge (l d : Obj) (props : List (List String)) :
    ∀ (acc : Obj) (p : List String), (∀ q ∈ props, pathsDiverge p q) →
      getPath (props.foldl (mergeProp l d) acc) p = getPath acc p := by
  induction props with
  | nil => intro acc p _; rfl
  | cons q rest ih =>
    intro acc p h
    rw [List.foldl_cons, ih _ p (fun q2 hq2 => h q2 (List.mem_cons_of_mem q hq2)),
      getPath_mergeProp_diverge l d acc p q (h q (List.mem_cons_self q rest))]

/-- The merged format reads, at each processed property path, the local
value when present, else the default value when present, else what the
starting accumulator read. -/
lemma getPath_mergeFold_mem (l d : Obj) (props : List (List String)) :
    ∀ (acc : Obj) (p : List String), p ∈ props →
      props.Pairwise pathsDiverge → (∀ q ∈ props, q ≠ []) →
      getPath acc p = none →
      getPath (props.foldl (mergeProp l d) acc) p =
        match getPath l p with
        | some v => some v
        | none => getPath d p := by
  induction props with
  | nil => intro acc p hp; cases hp
  | cons q rest ih =>
    intro acc p hp hpair hne hacc
    have hqne : q ≠ [] := hne q (List.mem_cons_self q rest)
    rcases List.mem_cons.mp hp with heq | hmem
    · subst heq
      rw [List.foldl_cons,
        getPath_mergeFold_diverge l d rest _ p
          (fun q2 hq2 => (List.pairwise_cons.mp hpair).1 q2 hq2),
        getPath_mergeProp_self l d acc p hqne, hacc]
      cases getPath l p <;> cases getPath d p <;> rfl
    · have hdivq : pathsDiverge p q :=
        pathsDiverge_symm ((List.pairwise_cons.mp hpair).1 p hmem)
      rw [List.foldl_cons]
      refine ih _ p hmem (List.pairwise_cons.mp hpair).2
        (fun q2 hq2 => hne q2 (List.mem_cons_of_mem q hq2)) ?_
      rw [getPath_mergeProp_diverge l d acc p q hdivq]
      exact hacc

/-! ## C7 -/

/-- C7: for every property table whose paths are nonempty and pairwise
non-nested (as the declared table is) and every pair of format dictionaries,
the merge reads, at each property path, the local value when present, else
the default value when present, else nothing; and merging a local dictionary
with `a` set over a default with `a` and `b` set yields exactly the local `a`
together with the default `b`. -/
theorem merge_formats_local_over_default :
    (∀ (props : List (List String)) (localFormat defaultFormat : Obj)
        (p : List String), p ∈ props → props.Pairwise pathsDiverge →
        (∀ q ∈ props, q ≠ []) →
        getPath (merge_formats props localFormat defaultFormat) p =
          match getPath localFormat p with
          | some v => some v
          | none => getPath defaultFormat p) ∧
    merge_formats [["a"], ["b"]] [("a", .num 1)] [("a", .num 2), ("b", .num 3)] =
      [("a", .num 1), ("b", .num 3)] := by
  constructor
  · intro props l d p hp hpair hne
    have hpne : p ≠ [] := hne p hp
    rw [merge_formats]
    refine getPath_mergeFold_mem l d props [] p hp hpair hne ?_
    exact getPath_nil_of_ne_nil p hpne
  · rfl

/-- Witness for C7: the declared property table satisfies the hypotheses,
and on it a local bold setting wins over an empty default. -/
theorem merge_formats_local_over_default_witness :
    getPath (merge_formats cellFormatPropertyPaths
      [("textFormat", .obj [("bold", .bool true)])] []) ["textFormat", "bold"] =
      some (.bool true) := by
  have h := merge_formats_local_over_default.1 cellFormatPropertyPaths
    [("textFormat", .obj [("bold", .bool true)])] [] ["textFormat", "bold"]
    (by decide) (by decide) (by decide)
  rw [h]
  rfl

/-! ## LazyOrderedDictionary lemmas (C8, C10) -/

lemma alistGet_alistSet_self {α β : Type} [DecidableEq α]
    (m : List (α × β)) (k : α) (v : β) :
    alistGet (alistSet m k v) k = some v := by
  induction m with
  | nil => simp [alistSet, alistGet]
  | cons hd t ih =>
    obtain ⟨k0, v0⟩ := hd
    by_cases hk : k0 = k
    · simp [alistSet, alistGet, hk]
    · simp [alistSet, alistGet, hk, ih]

lemma alistGet_alistSet_other {α β : Type} [DecidableEq α]
    (m : List (α × β)) (k k2 : α) (v : β) (h : k2 ≠ k) :
    alistGet (alistSet m k v) k2 = alistGet m k2 := by
  induction m with
  | nil => simp [alistSet, alistGet, Ne.symm h]
  | cons hd t ih =>
    obtain ⟨k0, v0⟩ := hd
    by_cases hk : k0 = k
    · subst hk
      simp [alistSet, alistGet, Ne.symm h]
    · simp [alistSet, alistGet, hk, ih]

lemma list_set_same {α : Type} :
    ∀ (l : List α) (i : Nat) (x : α), l[i]? = some x → l.set i x = l := by
  intro l
  induction l with
  | nil => intro i x h; cases h
  | cons a t ih =>
    intro i x h
    cases i with
    | zero =>
      simp at h
      simp [h]
    | succ j =>
      simp at h
      simp [List.set_cons_succ, ih j x h]

/-- The enumeration loop appends the enumerator output to the carried
list. -/
lemma enum_fold_list {K V : Type} [DecidableEq K] :
    ∀ (xs : List (K × V)) (l0 : List (K × V)) (ix0 : List (K × Nat)),
      (xs.foldl enumStep (l0, ix0)).1 = l0 ++ xs := by
  intro xs
  induction xs with
  | nil => intro l0 ix0; simp
  | cons x t ih =>
    intro l0 ix0
    rw [List.foldl_cons]
    rw [enumStep]
    rw [ih]
    simp

/-- After the enumeration loop, a key is absent from the index exactly when
it was absent before and the enumerator did not produce it. -/
lemma enum_fold_idx_none {K V : Type} [DecidableEq K] :
    ∀ (xs : List (K × V)) (l0 : List (K × V)) (ix0 : List (K × Nat)) (k : K),
      alistGet ((xs.foldl enumStep (l0, ix0)).2) k = none ↔
        (alistGet ix0 k = none ∧ k ∉ xs.map Prod.fst) := by
  intro xs
  induction xs with
  | nil => intro l0 ix0 k; simp
  | cons x t ih =>
    intro l0 ix0 k
    rw [List.foldl_cons, enumStep, ih]
    by_cases hk : k = x.1
    · subst hk
      rw [alistGet_alistSet_self]
      simp
    · rw [alistGet_alistSet_other _ _ _ _ hk]
      simp [hk]

/-- After the enumeration loop, every index entry points at a list position
holding its own key. -/
lemma enum_fold_idx_inv {K V : Type} [DecidableEq K] :
    ∀ (xs : List (K × V)) (l0 : List (K × V)) (ix0 : List (K × Nat)),
      (∀ k i, alistGet ix0 k = some i → ∃ v, l0[i]? = some (k, v)) →
      ∀ k i, alistGet ((xs.foldl enumStep (l0, ix0)).2) k = some i →
        ∃ v, ((xs.foldl enumStep (l0, ix0)).1)[i]? = some (k, v) := by
  intro xs
  induction xs with
  | nil => intro l0 ix0 h; simpa using h
  | cons x t ih =>
    intro l0 ix0 h
    rw [List.foldl_cons, enumStep]
    refine ih (l0 ++ [x]) _ ?_
    intro k i hget
    by_cases hk : k = x.1
    · subst hk
      rw [alistGet_alistSet_self] at hget
      obtain rfl := Option.some.inj hget
      exact ⟨x.2, by rw [List.getElem?_concat_length]⟩
    · rw [alistGet_alistSet_other _ _ _ _ hk] at hget
      obtain ⟨v, hv⟩ := h k i hget
      have hlt : i < l0.length := by
        by_contra hge
        rw [List.getElem?_eq_none (by omega)] at hv
        cases hv
      exact ⟨v, by rw [List.getElem?_append_left hlt]; exact hv⟩

/-- The restore loop leaves the index untouched. -/
lemma restore_fold_idx {K V : Type} [DecidableEq K] :
    ∀ (saves : List (K × V)) (l : List (K × V)) (ix : List (K × Nat)),
      (saves.foldl restoreStep (l, ix)).2 = ix := by
  intro saves
  induction saves with
  | nil => intro l ix; rfl
  | cons x t ih =>
    intro l ix
    rw [List.foldl_cons, restoreStep]
    cases alistGet ix x.1 with
    | some i => exact ih _ _
    | none => exact ih _ _

/-- The restore loop overwrites indexed keys in place and appends the
others, so the final key order is the carried keys followed by the saves
whose key the index does not know. -/
lemma restore_fold_mapFst {K V : Type} [DecidableEq K] :
    ∀ (saves : List (K × V)) (l : List (K × V)) (ix : List (K × Nat)),
      (∀ k i, alistGet ix k = some i → ∃ v, l[i]? = some (k, v)) →
      ((saves.foldl restoreStep (l, ix)).1).map Prod.fst =
        l.map Prod.fst ++
          (saves.map Prod.fst).filter (fun k => (alistGet ix k).isNone) := by
  intro saves
  induction saves with
  | nil => intro l ix _; simp
  | cons x t ih =>
    intro l ix hinv
    rw [List.foldl_cons, restoreStep]
    cases hx : alistGet ix x.1 with
    | some i =>
      obtain ⟨v, hv⟩ := hinv x.1 i hx
      have hset : (l.set i (x.1, x.2)).map Prod.fst = l.map Prod.fst := by
        rw [List.map_set]
        refine list_set_same _ _ _ ?_
        have := congrArg (Option.map Prod.fst) hv
        rw [← List.getElem?_map] at this
        simpa using this
      have hinv2 : ∀ k i2, alistGet ix k = some i2 →
          ∃ v2, (l.set i (x.1, x.2))[i2]? = some (k, v2) := by
        intro k i2 hk2
        by_cases hi : i2 = i
        · subst hi
          obtain ⟨v2, hv2⟩ := hinv k i2 hk2
          have hkx : k = x.1 := by
            rw [hv] at hv2
            exact congrArg Prod.fst (Option.some.inj hv2.symm)
          subst hkx
          have hlt : i2 < l.length := by
            by_contra hge
            rw [List.getElem?_eq_none (by omega)] at hv2
            cases hv2
          exact ⟨x.2, by rw [List.getElem?_set_self hlt]⟩
        · obtain ⟨v2, hv2⟩ := hinv k i2 hk2
          exact ⟨v2, by rw [List.getElem?_set_ne (fun he => hi he.symm)]; exact hv2⟩
      rw [ih _ _ hinv2, hset]
      simp [hx]
    | none =>
      have hinv2 : ∀ k i2, alistGet ix k = some i2 →
          ∃ v2, (l ++ [x])[i2]? = some (k, v2) := by
        intro k i2 hk2
        obtain ⟨v2, hv2⟩ := hinv k i2 hk2
        have hlt : i2 < l.length := by
          by_contra hge
          rw [List.getElem?_eq_none (by omega)] at hv2
          cases hv2
        exact ⟨v2, by rw [List.getElem?_append_left hlt]; exact hv2⟩
      rw [ih _ _ hinv2]
      simp [hx]

/-! ## C8 -/

/-- The concrete dictionary of the C8 scenario: an enumerator producing
`k1, k2` and a by-key constructor that can build `k3`. -/
def scenarioDict : LOD String String :=
  { enumerator := [("k1", "v1"), ("k2", "v2")]
    constructor := some (fun k => if k = "k3" then some "v3" else none)
    cacheList := []
    cacheIndex := []
    enumerated := false }

/-- C8: enumerating an un-enumerated dictionary yields the enumerator's key
order with the entries constructed on demand (and not produced by the
enumerator) appended at the end; and in the concrete scenario — construct
`k3` on demand before any enumeration, call `refresh`, iterate — the order
is exactly `k1, k2`, with `k3` dropped. -/
theorem lazy_dict_enumeration_order :
    (∀ (K V : Type) (_ : DecidableEq K) (s : LOD K V), s.enumerated = false →
      (s.ensure_enumerated).cacheList.map Prod.fst =
        s.enumerator.map Prod.fst ++
          (s.cacheList.map Prod.fst).filter
            (fun k => decide (k ∉ s.enumerator.map Prod.fst))) ∧
    LOD.keysList ((scenarioDict.getByKey "k3").1.refresh) = ["k1", "k2"] := by
  constructor
  · intro K V instK s hs
    rw [LOD.ensure_enumerated]
    rw [if_neg (by rw [hs]; exact Bool.false_ne_true)]
    have hinv : ∀ k i,
        alistGet ((s.enumerator.foldl enumStep
          (([] : List (K × V)), ([] : List (K × Nat)))).2) k = some i →
        ∃ v, ((s.enumerator.foldl enumStep
          (([] : List (K × V)), ([] : List (K × Nat)))).1)[i]? = some (k, v) := by
      refine enum_fold_idx_inv s.enumerator [] [] ?_
      intro k i h
      cases h
    have hlist := enum_fold_list s.enumerator
      (([] : List (K × V))) (([] : List (K × Nat)))
    simp only
    rw [restore_fold_mapFst s.cacheList _ _ hinv, hlist]
    simp only [List.nil_append]
    congr 1
    refine List.filter_congr ?_
    intro k hk
    rcases hik : alistGet ((s.enumerator.foldl enumStep
        (([] : List (K × V)), ([] : List (K × Nat)))).2) k with _ | i
    · have hmem := (enum_fold_idx_none s.enumerator [] [] k).mp hik
      simp [hmem.2]
    · have hnn : ¬ (alistGet ((s.enumerator.foldl enumStep
          (([] : List (K × V)), ([] : List (K × Nat)))).2) k = none) := by
        rw [hik]; exact fun he => Option.noConfusion he
      rw [enum_fold_idx_none s.enumerator [] [] k] at hnn
      push_neg at hnn
      have hkmem : k ∈ s.enumerator.map Prod.fst := hnn rfl
      simp [hik, hkmem]
  · rfl

/-- Witness for C8's general part: a dictionary holding an on-demand entry
`z` enumerates to the enumerator's key order with `z` appended. -/
theorem lazy_dict_enumeration_order_witness :
    ((LOD.ensure_enumerated
      { enumerator := [("a", "1"), ("b", "2")]
        constructor := none
        cacheList := [("z", "9")]
        cacheIndex := [("z", 0)]
        enumerated := false }).cacheList.map Prod.fst : List String) =
      ["a", "b", "z"] := by
  rw [lazy_dict_enumeration_order.1 String String inferInstance _ rfl]
  rfl

/-! ## C10 -/

/-- The dictionary state after constructing `k3` on demand and then
enumerating. -/
def inconsistentDict : LOD String String :=
  ((scenarioDict.getByKey "k3").1).ensure_enumerated

/-- C10: the claim says the key-to-index map always agrees with the ordered
list and that a by-key get of a listed entry returns the cached value
without invoking the constructor again or appending a duplicate.  After an
on-demand construction followed by enumeration, the restore loop re-appends
the entry to the list but never records it in the index, so the list holds
`(k3, v3)` at position 2 while the index has no entry for `k3`, and a by-key
get of `k3` invokes the constructor again and appends a duplicate. -/
theorem lazy_dict_index_misses_restored_entry :
    inconsistentDict.cacheList = [("k1", "v1"), ("k2", "v2"), ("k3", "v3")] ∧
    inconsistentDict.cacheList[2]? = some ("k3", "v3") ∧
    alistGet inconsistentDict.cacheIndex "k3" = none ∧
    (inconsistentDict.getByKey "k3").1.cacheList =
      [("k1", "v1"), ("k2", "v2"), ("k3", "v3"), ("k3", "v3")] := by
  exact ⟨rfl, rfl, rfl, rfl⟩

/-! ## C9 -/

lemma pyIndex1_le (i : Option Int) (dflt n : Nat) (hd : dflt ≤ n) :
    pyIndex1 i dflt n ≤ n := by
  cases i with
  | none => exact hd
  | some j =>
    simp only [pyIndex1]
    rw [Int.toNat_le]
    split <;> exact min_le_right _ _

/-- A negative endpoint within range counts from the end. -/
lemma pyIndex1_neg (i : Int) (dflt n : Nat) (h1 : -(n : Int) ≤ i) (h2 : i < 0) :
    (pyIndex1 (some i) dflt n : Int) = (n : Int) + i := by
  simp only [pyIndex1, if_pos h2]
  rw [Int.toNat_of_nonneg (by omega)]
  omega

/-- A cell of the parent view used in the C9 counterexample. -/
def parentCachedCell : CellS := CellS.make 0 1 emptyCellData []

/-- A fetched 1x3 parent view whose cache holds `parentCachedCell` at
`(0, 1)`. -/
def parentView : ViewState :=
  { sheetKey := 2, startRow := 0, endRow := 1, startCol := 0, endCol := 3,
    cellMap := [((0, 0), baseCell), ((0, 1), parentCachedCell)],
    defaultFormat := some [], fetched := true, fetchCount := 0 }

def parentRow : ViewRowS := { row := 0, startCol := 0, endCol := 3 }

def emptyResponse : Response := { defaultFormat := [], rowData := [] }

/-- C9 counterexample: the claim says slicing a view row yields a view with
its own initially-empty cell cache whose first read triggers an independent
fetch; in the source a row slice shares the parent view (and its cache), so
reading through the slice returns the parent's already-cached cell with the
view state — fetch count included — unchanged. -/
theorem row_slice_shares_parent_cache :
    parentRow.slice (some 1) (some 3) =
      { row := 0, startCol := 1, endCol := 3 } ∧
    alistGet parentView.cellMap (0, 1) = some parentCachedCell ∧
    parentView.fetchCount = 0 ∧
    ViewRowS.getItem parentView emptyResponse (parentRow.slice (some 1) (some 3)) 0 =
      (parentView, .ok parentCachedCell) := by
  exact ⟨rfl, rfl, rfl, rfl⟩

/-- C9 (amended): `Worksheet.view` with row/column ranges (negative indices
counting from the end) yields a fresh view over the same worksheet with
clamped narrower bounds, an empty cell cache and unfetched state, whose
first in-window read performs its own fetch; slicing a view row instead
yields a narrowed row over the same view, sharing that view's cache and
fetch state, so a read through it returns the parent's cached cell without
fetching. -/
theorem slicing_views_and_rows :
    (∀ (rows cols : Nat) (key : Int) (sr er sc ec : Option Int),
      (worksheet_view rows cols key sr er sc ec).cellMap = [] ∧
      (worksheet_view rows cols key sr er sc ec).fetched = false ∧
      (worksheet_view rows cols key sr er sc ec).fetchCount = 0 ∧
      0 ≤ (worksheet_view rows cols key sr er sc ec).startRow ∧
      (worksheet_view rows cols key sr er sc ec).startRow ≤
        (worksheet_view rows cols key sr er sc ec).endRow ∧
      (worksheet_view rows cols key sr er sc ec).endRow ≤ (rows : Int) ∧
      0 ≤ (worksheet_view rows cols key sr er sc ec).startCol ∧
      (worksheet_view rows cols key sr er sc ec).startCol ≤
        (worksheet_view rows cols key sr er sc ec).endCol ∧
      (worksheet_view rows cols key sr er sc ec).endCol ≤ (cols : Int)) ∧
    (∀ (i : Int) (dflt n : Nat), -(n : Int) ≤ i → i < 0 →
      (pyIndex1 (some i) dflt n : Int) = (n : Int) + i) ∧
    (∀ (v : ViewState) (resp : Response) (row col : Int),
      v.fetched = false →
      v.startRow ≤ row → row < v.endRow → v.startCol ≤ col → col < v.endCol →
      (v.get_cell resp row col).1.fetchCount = v.fetchCount + 1 ∧
      (v.get_cell resp row col).1.fetched = true) ∧
    (∀ (v : ViewState) (resp : Response) (r : ViewRowS)
        (start stop : Option Int) (i : Int) (c : CellS),
      v.fetched = true → 0 ≤ i →
      v.startRow ≤ (r.slice start stop).row →
      (r.slice start stop).row < v.endRow →
      v.startCol ≤ (r.slice start stop).startCol + i →
      (r.slice start stop).startCol + i < v.endCol →
      alistGet v.cellMap ((r.slice start stop).row,
        (r.slice start stop).startCol + i) = some c →
      (r.slice start stop).row = r.row ∧
      ViewRowS.getItem v resp (r.slice start stop) i = (v, .ok c)) := by
  refine ⟨?_, pyIndex1_neg, ?_, ?_⟩
  · intro rows cols key sr er sc ec
    refine ⟨rfl, rfl, rfl, ?_⟩
    simp only [worksheet_view]
    have h1 := pyIndex1_le sr 0 rows (Nat.zero_le rows)
    have h2 := pyIndex1_le er rows rows le_rfl
    have h3 := pyIndex1_le sc 0 cols (Nat.zero_le cols)
    have h4 := pyIndex1_le ec cols cols le_rfl
    refine ⟨by positivity, ?_, by exact_mod_cast h2, by positivity, ?_,
      by exact_mod_cast h4⟩
    · split <;> omega
    · split <;> omega
  · intro v resp row col hf h1 h2 h3 h4
    have hv2 : (v.ensure_fetched resp).fetchCount = v.fetchCount + 1 ∧
        (v.ensure_fetched resp).fetched = true := by
      rw [ViewState.ensure_fetched, if_neg (by rw [hf]; exact Bool.false_ne_true)]
      exact ⟨rfl, rfl⟩
    cases halist : alistGet ((v.ensure_fetched resp).cellMap) (row, col) with
    | some c =>
      simp [ViewState.get_cell, h1, h2, h3, h4, halist, hv2.1, hv2.2]
    | none =>
      simp [ViewState.get_cell, h1, h2, h3, h4, halist, hv2.1, hv2.2]
  · intro v resp r start stop i c hf hi h1 h2 h3 h4 hmap
    refine ⟨rfl, ?_⟩
    have hcol : (if i < 0 then (r.slice start stop).endCol + i
        else (r.slice start stop).startCol + i) =
        (r.slice start stop).startCol + i := by
      rw [if_neg (by omega)]
    rw [ViewRowS.getItem, hcol]
    have hv2 : v.ensure_fetched resp = v := by
      simp [ViewState.ensure_fetched, hf]
    simp [ViewState.get_cell, h1, h2, h3, h4, hv2, hmap]

/-- Witness for C9's amended theorem: a concrete worksheet view with a
negative start row resolves and starts empty and unfetched; its first
in-window read fetches; and a concrete row slice read returns the parent's
cached cell. -/
theorem slicing_views_and_rows_witness :
    (worksheet_view 10 10 2 (some (-2)) none (some 1) (some 3)).cellMap = [] ∧
    (worksheet_view 10 10 2 (some (-2)) none (some 1) (some 3)).fetched = false ∧
    ((worksheet_view 10 10 2 (some (-2)) none (some 1) (some 3)).get_cell
      emptyResponse 8 1).1.fetchCount = 1 ∧
    ViewRowS.getItem parentView emptyResponse (parentRow.slice (some 1) (some 3)) 0 =
      (parentView, .ok parentCachedCell) := by
  obtain ⟨ha, hb, hc, hd⟩ := slicing_views_and_rows
  refine ⟨(ha 10 10 2 (some (-2)) none (some 1) (some 3)).1,
    (ha 10 10 2 (some (-2)) none (some 1) (some 3)).2.1, ?_, ?_⟩
  · have h := hc (worksheet_view 10 10 2 (some (-2)) none (some 1) (some 3))
      emptyResponse 8 1 rfl (by decide) (by decide) (by decide) (by decide)
    rw [h.1]
    rfl
  · exact (hd parentView emptyResponse parentRow (some 1) (some 3) 0
      parentCachedCell rfl (by decide) (by decide) (by decide) (by decide)
      (by decide) rfl).2

end Hyou
